import Mathlib

/-!
Verification of the Minesweeper AI solver (`minesweeper.py`).

The development shallowly embeds the `Sentence` class and the
`MinesweeperAI` class: Python sets of integer pairs become `Finset (ℤ × ℤ)`,
the knowledge base (a Python list) becomes `List Sentence`, counts become `ℤ`,
and the two nested loops of the fixed-point propagation in `add_knowledge`
become explicitly fueled recursions returning `Option` (so that a run that
exceeds its fuel is distinguishable from a run that reached the fixed point).
Float arithmetic of `make_random_move` is modelled over `ℚ`; the call to
`random.choice` is modelled by an extra argument `k : ℕ` selecting an index
into the candidate list.
-/

namespace Minesweeper

/-- A board cell, a `(row, column)` pair of integers as in the Python tuples. -/
abbrev Cell : Type := ℤ × ℤ

/-- Componentwise decidable equality of pairs.  The core instance decides a
pair equality through `Eq.rec`, which the kernel cannot reduce when the
components are propositionally but not definitionally equal (as happens
with `Finset` components); this componentwise variant always evaluates. -/
instance (priority := 2000) prodEvalDecEq {α β : Type} [DecidableEq α]
    [DecidableEq β] : DecidableEq (α × β) := fun x y =>
  decidable_of_iff (x.1 = y.1 ∧ x.2 = y.2) Prod.ext_iff.symm

/-- Kernel-evaluable decidable equality of options (see `prodEvalDecEq`). -/
instance (priority := 2000) optionEvalDecEq {α : Type} [DecidableEq α] :
    DecidableEq (Option α ) := fun a b =>
  match a, b with
  | none, none => isTrue rfl
  | none, some _ => isFalse (fun h => Option.noConfusion h)
  | some _, none => isFalse (fun h => Option.noConfusion h)
  | some x, some y => decidable_of_iff (x = y) Option.some_inj.symm

/-- Embeds the Python class `Sentence`: a set of cells and a count of how many
of them are mines.  Python's `Sentence.__eq__` compares `cells` and `count`
structurally, which is exactly the derived decidable equality. -/
structure Sentence where
  cells : Finset Cell
  count : ℤ

/-- Structural equality of sentences, exactly Python's `Sentence.__eq__`
(equal cell sets and equal counts).  Defined componentwise so that the
kernel can evaluate it on concrete states. -/
instance : DecidableEq Sentence := fun s t =>
  decidable_of_iff (s.cells = t.cells ∧ s.count = t.count) (by
    cases s; cases t; simp)

/-- Embeds `Sentence.known_mines`:
`self.cells if len(self.cells) == self.count != 0 else set()`
(the chained comparison means `len(cells) == count` and `count != 0`). -/
def Sentence.known_mines (s : Sentence) : Finset Cell :=
  if (s.cells.card : ℤ) = s.count ∧ s.count ≠ 0 then s.cells else ∅

/-- Embeds `Sentence.known_safes`: `self.cells if self.count == 0 else set()`. -/
def Sentence.known_safes (s : Sentence) : Finset Cell :=
  if s.count = 0 then s.cells else ∅

/-- Embeds `Sentence.mark_mine`: if the cell is present, remove it and
decrement the count clamped at zero (`max(0, self.count - 1)`). -/
def Sentence.mark_mine (s : Sentence) (c : Cell) : Sentence :=
  if c ∈ s.cells then ⟨s.cells.erase c, max 0 (s.count - 1)⟩ else s

/-- Embeds `Sentence.mark_safe`: `self.cells.discard(cell)`; the count is
unchanged and discarding an absent cell is a no-op (`Finset.erase`). -/
def Sentence.mark_safe (s : Sentence) (c : Cell) : Sentence :=
  ⟨s.cells.erase c, s.count⟩

/-- A total (row-major) order on cells.  Python iterates over its hash sets
in unspecified order; the model enumerates a `Finset` in this canonical
order wherever the source iterates over a set or picks an element of one. -/
def cellLE (a b : Cell) : Prop :=
  a.1 < b.1 ∨ (a.1 = b.1 ∧ a.2 ≤ b.2)

instance : DecidableRel cellLE := fun a b => by
  unfold cellLE; exact inferInstance

instance : IsTrans Cell cellLE :=
  ⟨by intro a b c hab hbc; unfold cellLE at *; omega⟩

instance : IsAntisymm Cell cellLE :=
  ⟨by
    intro a b hab hba
    unfold cellLE at *
    have h1 : a.1 = b.1 := by omega
    have h2 : a.2 = b.2 := by omega
    exact Prod.ext h1 h2⟩

instance : IsTotal Cell cellLE :=
  ⟨by intro a b; unfold cellLE; omega⟩

/-- Canonical enumeration of a multiset of cells: insertion sort by `cellLE`
(chosen over `Multiset.sort` because insertion sort is structurally
recursive, hence evaluable inside the kernel). -/
def cellListM : Multiset Cell → List Cell :=
  Quot.lift (fun l => l.insertionSort cellLE) (by
    intro l1 l2 h
    have hp : List.Perm l1 l2 := h
    have hs1 : List.Sorted cellLE (l1.insertionSort cellLE) :=
      l1.sorted_insertionSort cellLE
    have hs2 : List.Sorted cellLE (l2.insertionSort cellLE) :=
      l2.sorted_insertionSort cellLE
    exact List.eq_of_perm_of_sorted
      (((l1.perm_insertionSort cellLE).trans hp).trans
        (l2.perm_insertionSort cellLE).symm) hs1 hs2)

/-- Canonical enumeration of a finite set of cells (see `cellLE`). -/
def cellList (s : Finset Cell) : List Cell :=
  cellListM s.val

/-- Embeds the state of a `MinesweeperAI` object: grid dimensions plus the
four mutable attributes set up in `MinesweeperAI.__init__`. -/
structure AIState where
  height : ℕ
  width : ℕ
  moves_made : Finset Cell
  mines : Finset Cell
  safes : Finset Cell
  knowledge : List Sentence

/-- Componentwise decidable equality of solver states (see the instance for
`Sentence`). -/
instance : DecidableEq AIState := fun σ τ =>
  decidable_of_iff
    (σ.height = τ.height ∧ σ.width = τ.width ∧ σ.moves_made = τ.moves_made ∧
      σ.mines = τ.mines ∧ σ.safes = τ.safes ∧ σ.knowledge = τ.knowledge) (by
    cases σ; cases τ; simp)

/-- The state produced by `MinesweeperAI.__init__(height, width)`. -/
def AIState.initial (h w : ℕ) : AIState :=
  ⟨h, w, ∅, ∅, ∅, []⟩

/-- Embeds `MinesweeperAI.mark_mine`: add the cell to the global mine set and
apply `Sentence.mark_mine` to every sentence of the knowledge base. -/
def AIState.mark_mine (σ : AIState) (c : Cell) : AIState :=
  { σ with mines := insert c σ.mines,
           knowledge := σ.knowledge.map (fun s => s.mark_mine c) }

/-- Embeds `MinesweeperAI.mark_safe`: add the cell to the global safe set and
apply `Sentence.mark_safe` to every sentence of the knowledge base. -/
def AIState.mark_safe (σ : AIState) (c : Cell) : AIState :=
  { σ with safes := insert c σ.safes,
           knowledge := σ.knowledge.map (fun s => s.mark_safe c) }

/-- The in-bounds 8-neighborhood of a cell, excluding the cell itself: the
double `range(cell[k] - 1, cell[k] + 2)` loop of `add_knowledge` with the
bounds filter `0 <= i < self.height and 0 <= j < self.width`. -/
def neighborhood (h w : ℕ) (c : Cell) : Finset Cell :=
  ((Finset.Ico (c.1 - 1) (c.1 + 2)) ×ˢ (Finset.Ico (c.2 - 1) (c.2 + 2))).filter
    (fun p => p ≠ c ∧ 0 ≤ p.1 ∧ p.1 < (h : ℤ) ∧ 0 ≤ p.2 ∧ p.2 < (w : ℤ))

/-- Embeds the `new_sentence_cells` comprehension of `add_knowledge`: the
in-bounds neighborhood further restricted to cells that are neither known
safe nor known mine. -/
def newSentenceCells (σ : AIState) (c : Cell) : Finset Cell :=
  (neighborhood σ.height σ.width c).filter
    (fun p => p ∉ σ.safes ∧ p ∉ σ.mines)

/-- Embeds the inner loop `for sentence_2 in self.knowledge[i+1:]` of the
subset-inference scan.  `sl` is the (snapshot) slice being traversed, `kb`
is the live knowledge list appended to, `ch` the `knowledge_changed` flag.
The pair condition is `sentence_1.cells and sentence_1.cells.issubset(...)`,
the derived candidate is `(B.cells - A.cells, B.count - A.count)`, and the
dedup check `new_sentence not in self.knowledge` is against the live list. -/
def scanInner (s1 : Sentence) : List Sentence → List Sentence → Bool →
    List Sentence × Bool
  | [], kb, ch => (kb, ch)
  | s2 :: rest, kb, ch =>
    if s1.cells ≠ ∅ ∧ s1.cells ⊆ s2.cells then
      if (⟨s2.cells \ s1.cells, s2.count - s1.count⟩ : Sentence) ∈ kb then
        scanInner s1 rest kb ch
      else
        scanInner s1 rest
          (kb ++ [⟨s2.cells \ s1.cells, s2.count - s1.count⟩]) true
    else scanInner s1 rest kb ch

/-- Embeds the outer loop `for i, sentence_1 in enumerate(self.knowledge)` of
the subset-inference scan.  Python iterates over the live, growing list, and
takes a fresh slice `self.knowledge[i+1:]` at each step, so the recursion
carries the current list and index; `fuel` bounds the number of outer steps
taken (`none` means the fuel ran out before the iteration finished). -/
def scanGo : ℕ → List Sentence → ℕ → Bool → Option (List Sentence × Bool)
  | 0, kb, i, ch => if i < kb.length then none else some (kb, ch)
  | fuel + 1, kb, i, ch =>
    if h : i < kb.length then
      let s1 := kb.get ⟨i, h⟩
      let p := scanInner s1 (kb.drop (i + 1)) kb ch
      scanGo fuel p.1 (i + 1) p.2
    else some (kb, ch)

/-- Embeds one iteration of the `while knowledge_changed` loop of
`add_knowledge`: aggregate `known_safes`/`known_mines` over the knowledge
base, mark every newly found safe then every newly found mine (each loop
ran at least once sets `knowledge_changed`), prune sentences with empty cell
sets (without touching the flag), then run the subset-inference scan.  The
per-element Python loops over the freshly computed difference sets are
rendered as folds over their elements; marking distinct cells commutes, so
the unspecified Python set iteration order is immaterial. -/
def passStep (sf : ℕ) (σ : AIState) : Option (AIState × Bool) :=
  let safesAgg := σ.knowledge.foldl (fun acc s => acc ∪ s.known_safes) ∅
  let minesAgg := σ.knowledge.foldl (fun acc s => acc ∪ s.known_mines) ∅
  let newSafes := safesAgg \ σ.safes
  let newMines := minesAgg \ σ.mines
  let σ1 := (cellList newSafes).foldl AIState.mark_safe σ
  let σ2 := (cellList newMines).foldl AIState.mark_mine σ1
  let ch0 : Bool := if newSafes = ∅ ∧ newMines = ∅ then false else true
  let kb := σ2.knowledge.filter (fun s => s.cells ≠ ∅)
  (scanGo sf kb 0 ch0).map (fun p => ({ σ2 with knowledge := p.1 }, p.2))

/-- Embeds the `while knowledge_changed` loop of `add_knowledge`: repeat
`passStep` while the pass reported a change.  `pf` bounds the number of
passes, `sf` the fuel handed to each pass's subset scan; `none` means some
fuel ran out before the fixed point was reached. -/
def propagate : ℕ → ℕ → AIState → Option AIState
  | 0, _, _ => none
  | pf + 1, sf, σ =>
    match passStep sf σ with
    | none => none
    | some (σ', ch) => if ch then propagate pf sf σ' else some σ'

/-- Embeds the observation-ingestion prefix of `add_knowledge` (everything
before the propagation loop): record the move, mark the observed cell safe,
build `new_sentence_cells`, adjust the count by
`sum((i, j) in self.mines for i, j in new_sentence_cells)` exactly as the
source writes it (a sum over the already-filtered cell set), and append the
new sentence unconditionally. -/
def AIState.ingest (σ : AIState) (c : Cell) (n : ℤ) : AIState :=
  let σ1 : AIState := { σ with moves_made := insert c σ.moves_made }
  let σ2 := σ1.mark_safe c
  let nbrs := newSentenceCells σ2 c
  let n' := n - (((nbrs.filter (fun p => p ∈ σ2.mines)).card : ℤ))
  { σ2 with knowledge := σ2.knowledge ++ [⟨nbrs, n'⟩] }

/-- Embeds `MinesweeperAI.add_knowledge`: ingestion followed by fixed-point
propagation (the trailing `print` diagnostics have no state effect). -/
def AIState.add_knowledge (σ : AIState) (pf sf : ℕ) (c : Cell) (n : ℤ) :
    Option AIState :=
  propagate pf sf (σ.ingest c n)

/-- Embeds `MinesweeperAI.make_safe_move`: pick an element of
`self.safes - self.moves_made` if that set is non-empty, else `None`.
Python's `next(iter(...))` returns an unspecified element of the set; the
model takes the head of the canonical enumeration. -/
def AIState.make_safe_move (σ : AIState) : Option Cell :=
  (cellList (σ.safes \ σ.moves_made)).head?

/-- Embeds the `remaining` set of `make_random_move`: all grid cells minus
`self.moves_made` minus `self.mines`. -/
def AIState.remaining (σ : AIState) : Finset Cell :=
  ((((Finset.range σ.height) ×ˢ (Finset.range σ.width)).image
      (fun p => ((p.1 : ℤ), (p.2 : ℤ)))) \
    σ.moves_made) \ σ.mines

/-- Embeds the risk computed for one candidate cell by `make_random_move`:
the baseline `(8 - len(self.mines)) / len(remaining)` — note the hardcoded
literal `8`, the function takes no mine-count argument — maxed with
`sentence.count / len(sentence.cells)` over every sentence containing the
cell.  Python float arithmetic is modelled over `ℚ`. -/
def AIState.cellRisk (σ : AIState) (c : Cell) : ℚ :=
  σ.knowledge.foldl
    (fun r s =>
      if c ∈ s.cells then max r ((s.count : ℚ) / ((s.cells.card : ℚ))) else r)
    (((8 : ℚ) - (σ.mines.card : ℚ)) / ((σ.remaining.card : ℚ)))

/-- Embeds `min_risk = min(cell_risks.values())` (`⊥` when there are no
candidates). -/
def AIState.minRisk (σ : AIState) : WithTop ℚ :=
  (σ.remaining.image σ.cellRisk).min

/-- Embeds `safest_moves`: the candidates whose risk equals the minimum. -/
def AIState.safest_moves (σ : AIState) : Finset Cell :=
  σ.remaining.filter (fun c => (σ.cellRisk c : WithTop ℚ) = σ.minRisk)

/-- Embeds `MinesweeperAI.make_random_move`: `None` when `remaining` is
empty, else `random.choice(safest_moves)`.  The random draw is modelled by
the index argument `k`, reduced modulo the candidate-list length. -/
def AIState.make_random_move (σ : AIState) (k : ℕ) : Option Cell :=
  if σ.remaining = ∅ then none
  else
    let l := cellList σ.safest_moves
    some (l.getD (k % l.length) ((0, 0) : Cell))

/-- Risk of a candidate cell as §4.5 of the spec words it for
`make_random_move(total_mine_count)`: baseline
`(total_mine_count - |mines|) / |remaining|` maxed with the per-sentence
densities.  Kept beside `AIState.cellRisk` (translated from the source) to
compare the two. -/
def specRisk (total : ℤ) (σ : AIState) (c : Cell) : ℚ :=
  σ.knowledge.foldl
    (fun r s =>
      if c ∈ s.cells then max r ((s.count : ℚ) / ((s.cells.card : ℚ))) else r)
    (((total : ℚ) - (σ.mines.card : ℚ)) / ((σ.remaining.card : ℚ)))

/-- States reachable from a freshly constructed solver by any sequence of
terminating `add_knowledge` calls (any fuels, any cells, any counts). -/
inductive Reachable : AIState → Prop
  | init (h w : ℕ) : Reachable (AIState.initial h w)
  | step (σ σ' : AIState) (pf sf : ℕ) (c : Cell) (n : ℤ) :
      Reachable σ → σ.add_knowledge pf sf c n = some σ' → Reachable σ'

/-- The solver state reached from `AIState.initial 1 3` by
`add_knowledge((0,0), 1)`: the sentence `{(0,1)} = 1` resolves `(0,1)` as a
mine and is pruned. -/
def run13 : AIState := ⟨1, 3, {(0, 0)}, {(0, 1)}, {(0, 0)}, []⟩

/-- The solver state reached from `AIState.initial 2 2` by
`add_knowledge((0,0), 1)`. -/
def run22 : AIState :=
  ⟨2, 2, {(0, 0)}, ∅, {(0, 0)}, [⟨{(0, 1), (1, 0), (1, 1)}, 1⟩]⟩

/-- The state after the ingestion prefix of `run22.add_knowledge (1,1) 1`:
marking `(1,1)` safe narrows the old sentence to `{(0,1),(1,0)} = 1` and the
new observation appends an equal sentence. -/
def run22i : AIState :=
  ⟨2, 2, {(0, 0), (1, 1)}, ∅, {(0, 0), (1, 1)},
    [⟨{(0, 1), (1, 0)}, 1⟩, ⟨{(0, 1), (1, 0)}, 1⟩]⟩

/-- The fixed cycle point of the diverging propagation started from
`run22i`: the subset scan derives the empty sentence `∅ = 0` from the two
equal sentences, the next pass prunes it and derives it again. -/
def run22b : AIState :=
  ⟨2, 2, {(0, 0), (1, 1)}, ∅, {(0, 0), (1, 1)},
    [⟨{(0, 1), (1, 0)}, 1⟩, ⟨{(0, 1), (1, 0)}, 1⟩, ⟨∅, 0⟩]⟩

/-- State reached from `AIState.initial 3 3` by `add_knowledge((0,0), 1)`. -/
def run33a : AIState :=
  ⟨3, 3, {(0, 0)}, ∅, {(0, 0)}, [⟨{(0, 1), (1, 0), (1, 1)}, 1⟩]⟩

/-- State reached from `run33a` by `add_knowledge((2,1), 2)`. -/
def run33b : AIState :=
  ⟨3, 3, {(0, 0), (2, 1)}, ∅, {(0, 0), (2, 1)},
    [⟨{(0, 1), (1, 0), (1, 1)}, 1⟩,
      ⟨{(1, 0), (1, 1), (1, 2), (2, 0), (2, 2)}, 2⟩]⟩

/-- State reached from `run33b` by `add_knowledge((2,0), 1)`: its knowledge
base holds `{(1,0),(1,1)} = 1`, a strict subset of the earlier-listed
`{(0,1),(1,0),(1,1)} = 1`, yet no difference sentence was derived.  All
three observations are consistent with the ground-truth board of a 3×3 game
with mines at `(1,0)` and `(2,2)`. -/
def run33c : AIState :=
  ⟨3, 3, {(0, 0), (2, 0), (2, 1)}, ∅, {(0, 0), (2, 0), (2, 1)},
    [⟨{(0, 1), (1, 0), (1, 1)}, 1⟩, ⟨{(1, 0), (1, 1), (1, 2), (2, 2)}, 2⟩,
      ⟨{(1, 0), (1, 1)}, 1⟩]⟩

/-- State reached from `AIState.initial 1 2` by `add_knowledge((0,0), 1)`. -/
def run12a : AIState := ⟨1, 2, {(0, 0)}, {(0, 1)}, {(0, 0)}, []⟩

/-- State reached from `run12a` by `add_knowledge((0,1), 0)`: the observed
cell was already a known mine, so it now sits in `safes ∩ mines`. -/
def run12b : AIState :=
  ⟨1, 2, {(0, 0), (0, 1)}, {(0, 1)}, {(0, 0), (0, 1)}, []⟩

/-- C1: the count stored at ingestion is NOT the caller count minus the
number of in-bounds neighbors already known to be mines.  On the 1×3 board,
after `add_knowledge((0,0), 1)` has established `mines = {(0,1)}`, the call
`add_knowledge((0,2), 1)` appends the sentence `∅ = 1`: the source computes
its adjustment `sum((i, j) in self.mines for (i, j) in new_sentence_cells)`
over a set from which mines were already excluded, so it subtracts zero,
while the cell `(0,2)` has one in-bounds neighbor (`(0,1)`) in `mines` and
the claimed count would be `1 - 1 = 0`. -/
theorem add_knowledge_count_not_adjusted :
    ((AIState.initial 1 3).add_knowledge 9 9 (0, 0) 1 = some run13) ∧
    (run13.ingest (0, 2) 1).knowledge = [⟨∅, 1⟩] ∧
    (1 : ℤ) ≠
      1 - (((neighborhood 1 3 (0, 2)).filter
        (fun p => p ∈ run13.mines)).card : ℤ) := by
  decide

/-- C5: a sentence whose count exceeds the size of its cell set is held in
the knowledge base: on the 1×3 board with `mines = {(0,1)}` (reached by an
honest observation), ingesting the honest observation `((0,2), 1)` stores
the sentence `∅ = 1`, violating `0 ≤ count ≤ |cells|`. -/
theorem sentence_count_exceeds_card :
    ((AIState.initial 1 3).add_knowledge 9 9 (0, 0) 1 = some run13) ∧
    ∃ s ∈ (run13.ingest (0, 2) 1).knowledge,
      ¬(0 ≤ s.count ∧ s.count ≤ (s.cells.card : ℤ)) := by
  decide

/-- C6 counterexample: at the ingestion step a sentence IS appended even
when the unresolved neighbor set is empty: ingesting `((0,2), 1)` on
`run13` grows the knowledge base by one and the appended sentence has an
empty cell set. -/
theorem ingest_appends_empty_sentence :
    ((AIState.initial 1 3).add_knowledge 9 9 (0, 0) 1 = some run13) ∧
    (run13.ingest (0, 2) 1).knowledge.length = run13.knowledge.length + 1 ∧
    ∃ s ∈ (run13.ingest (0, 2) 1).knowledge, s.cells = ∅ := by
  decide

/-- C6 amended: the ingestion step of `add_knowledge` appends exactly one
sentence to the knowledge base unconditionally — there is no emptiness
check; sentences over an empty cell set are removed only later, by the
pruning step of the propagation loop. -/
theorem ingest_always_appends :
    ∀ (σ : AIState) (c : Cell) (n : ℤ),
      ∃ s : Sentence,
        (σ.ingest c n).knowledge =
          (({ σ with moves_made := insert c σ.moves_made } : AIState).mark_safe
            c).knowledge ++ [s] :=
  fun _ _ _ => ⟨_, rfl⟩

/-- C2 counterexample: after the observation sequence
`((0,0),1), ((2,1),2), ((2,0),1)` on a 3×3 board (all three counts are the
true `nearby_mines` values of a board with mines at `(1,0)` and `(2,2)`),
the knowledge base holds the non-empty sentences `{(1,0),(1,1)} = 1` and
`{(0,1),(1,0),(1,1)} = 1` with the first a strict subset of the second,
yet the difference sentence `{(0,1)} = 0` was never derived and `(0,1)` is
not known safe: the scan only compares a sentence with LATER list entries,
and here the superset entered the knowledge base first. -/
theorem subset_inference_order_counterexample :
    ((AIState.initial 3 3).add_knowledge 9 9 (0, 0) 1 = some run33a) ∧
    (run33a.add_knowledge 9 9 (2, 1) 2 = some run33b) ∧
    (run33b.add_knowledge 9 9 (2, 0) 1 = some run33c) ∧
    (⟨{(1, 0), (1, 1)}, 1⟩ : Sentence) ∈ run33c.knowledge ∧
    (⟨{(0, 1), (1, 0), (1, 1)}, 1⟩ : Sentence) ∈ run33c.knowledge ∧
    ({(1, 0), (1, 1)} : Finset Cell) ⊂ {(0, 1), (1, 0), (1, 1)} ∧
    (⟨{(0, 1)}, 0⟩ : Sentence) ∉ run33c.knowledge ∧
    ((0, 1) : Cell) ∉ run33c.safes := by
  decide

/-- C4 counterexample: the invariant `safes ∩ mines = ∅` fails after a
legal-looking observation sequence: on the 1×2 board, `add_knowledge((0,0),1)`
infers that `(0,1)` is a mine, and a subsequent `add_knowledge((0,1),0)`
(each count is within `0 ≤ count ≤ #in-bounds neighbors`) marks the observed
cell safe, leaving `(0,1) ∈ safes ∩ mines`. -/
theorem safes_mines_disjoint_counterexample :
    ((AIState.initial 1 2).add_knowledge 9 9 (0, 0) 1 = some run12a) ∧
    (run12a.add_knowledge 9 9 (0, 1) 0 = some run12b) ∧
    ((0, 1) : Cell) ∈ run12b.safes ∩ run12b.mines := by
  decide

/-- C3: the fixed-point propagation loop of `add_knowledge` does not always
terminate.  From the reachable state `run22` (2×2 board, one observation,
consistent with a board having one mine at `(0,1)` or `(1,0)`), the call
`add_knowledge((1,1), 1)` leaves two equal sentences in the knowledge base;
every subsequent pass prunes the empty difference sentence `∅ = 0` and the
subset scan immediately re-derives it (the dedup check no longer sees it),
so the `changed` flag is set forever: no pass budget `pf` suffices (pass
fuel 5 is ample for each individual scan here, which touches three
sentences). -/
theorem propagation_diverges_on_duplicate_sentences :
    ((AIState.initial 2 2).add_knowledge 9 9 (0, 0) 1 = some run22) ∧
    ∀ pf, run22.add_knowledge pf 5 (1, 1) 1 = none := by
  refine ⟨by decide, ?_⟩
  have hing : run22.ingest (1, 1) 1 = run22i := by decide
  have h1 : passStep 5 run22i = some (run22b, true) := by decide
  have h2 : passStep 5 run22b = some (run22b, true) := by decide
  have hb : ∀ n, propagate n 5 run22b = none := by
    intro n
    induction n with
    | zero => rfl
    | succ m ih => rw [propagate, h2]; simpa using ih
  intro pf
  show propagate pf 5 (run22.ingest (1, 1) 1) = none
  rw [hing]
  cases pf with
  | zero => rfl
  | succ m => rw [propagate, h1]; simpa using hb m

/-- Auxiliary: the subset-inference inner loop only ever appends to the
live knowledge list. -/
theorem scanInner_append (s1 : Sentence) :
    ∀ (sl kb : List Sentence) (ch : Bool),
      ∃ t, (scanInner s1 sl kb ch).1 = kb ++ t := by
  intro sl
  induction sl with
  | nil => intro kb ch; exact ⟨[], (List.append_nil kb).symm⟩
  | cons s2 rest ih =>
    intro kb ch
    rw [scanInner]
    split
    · split
      · exact ih kb ch
      · rcases ih (kb ++ [⟨s2.cells \ s1.cells, s2.count - s1.count⟩]) true
          with ⟨t, ht⟩
        refine ⟨⟨s2.cells \ s1.cells, s2.count - s1.count⟩ :: t, ?_⟩
        rw [ht, List.append_assoc]
        rfl
    · exact ih kb ch

/-- Auxiliary: membership in the live list survives the inner loop. -/
theorem scanInner_mem {x : Sentence} (s1 : Sentence) (sl kb : List Sentence)
    (ch : Bool) (hx : x ∈ kb) : x ∈ (scanInner s1 sl kb ch).1 := by
  rcases scanInner_append s1 sl kb ch with ⟨t, ht⟩
  rw [ht]
  exact List.mem_append_left _ hx

/-- Auxiliary: whenever the slice contains a sentence `s2` with
`s1.cells` a non-empty subset of `s2.cells`, the inner loop guarantees the
difference candidate is present in the resulting list (either it was
already there, or it gets appended). -/
theorem scanInner_derives (s1 : Sentence) {s2 : Sentence} :
    ∀ (sl kb : List Sentence) (ch : Bool), s2 ∈ sl → s1.cells ≠ ∅ →
      s1.cells ⊆ s2.cells →
      (⟨s2.cells \ s1.cells, s2.count - s1.count⟩ : Sentence) ∈
        (scanInner s1 sl kb ch).1 := by
  intro sl
  induction sl with
  | nil => intro kb ch h; cases h
  | cons a rest ih =>
    intro kb ch hmem hne hsub
    rw [scanInner]
    rcases List.mem_cons.mp hmem with rfl | hmem2
    · rw [if_pos ⟨hne, hsub⟩]
      by_cases hc : (⟨s2.cells \ s1.cells, s2.count - s1.count⟩ : Sentence) ∈ kb
      · rw [if_pos hc]
        exact scanInner_mem s1 rest kb ch hc
      · rw [if_neg hc]
        exact scanInner_mem s1 rest _ true (by simp)
    · split
      · split
        · exact ih kb ch hmem2 hne hsub
        · exact ih _ true hmem2 hne hsub
      · exact ih kb ch hmem2 hne hsub

/-- Auxiliary: the subset-inference outer loop only ever appends to the
knowledge list. -/
theorem scanGo_append :
    ∀ (fuel : ℕ) (kb : List Sentence) (i : ℕ) (ch : Bool)
      (out : List Sentence × Bool),
      scanGo fuel kb i ch = some out → ∃ t, out.1 = kb ++ t := by
  intro fuel
  induction fuel with
  | zero =>
    intro kb i ch out h
    rw [scanGo] at h
    split at h
    · cases h
    · cases h
      exact ⟨[], (List.append_nil kb).symm⟩
  | succ m ih =>
    intro kb i ch out h
    rw [scanGo] at h
    split at h
    · rcases ih _ _ _ _ h with ⟨t, ht⟩
      rcases scanInner_append (kb.get ⟨i, by assumption⟩) (kb.drop (i + 1))
        kb ch with ⟨t2, ht2⟩
      refine ⟨t2 ++ t, ?_⟩
      rw [ht, ht2, List.append_assoc]
    · cases h
      exact ⟨[], (List.append_nil kb).symm⟩

/-- Auxiliary: membership in the knowledge list survives the outer loop. -/
theorem scanGo_mem {x : Sentence} (fuel : ℕ) (kb : List Sentence) (i : ℕ)
    (ch : Bool) (out : List Sentence × Bool) (h : scanGo fuel kb i ch = some out)
    (hx : x ∈ kb) : x ∈ out.1 := by
  rcases scanGo_append fuel kb i ch out h with ⟨t, ht⟩
  rw [ht]
  exact List.mem_append_left _ hx

/-- C2 amended: the subset-inference scan compares a sentence only against
LATER entries of the knowledge list, and by non-strict inclusion.  When the
completed scan starts at index `i` and the list holds, at positions
`i ≤ a < b`, a non-empty sentence `kb[a]` with `kb[a].cells ⊆ kb[b].cells`,
the difference sentence `(kb[b].cells − kb[a].cells, kb[b].count − kb[a].count)`
is in the resulting list.  (When the subset sentence instead sits after the
superset, nothing forces the inference; see
`subset_inference_order_counterexample`.) -/
theorem scan_derives_difference_of_earlier_subset :
    ∀ (fuel : ℕ) (kb : List Sentence) (i a b : ℕ) (ch : Bool)
      (out : List Sentence × Bool) (ha : a < kb.length) (hb : b < kb.length),
      scanGo fuel kb i ch = some out → i ≤ a → a < b →
      (kb.get ⟨a, ha⟩).cells ≠ ∅ →
      (kb.get ⟨a, ha⟩).cells ⊆ (kb.get ⟨b, hb⟩).cells →
      (⟨(kb.get ⟨b, hb⟩).cells \ (kb.get ⟨a, ha⟩).cells,
        (kb.get ⟨b, hb⟩).count - (kb.get ⟨a, ha⟩).count⟩ : Sentence) ∈ out.1 := by
  intro fuel
  induction fuel with
  | zero =>
    intro kb i a b ch out ha hb h hia hab hne hsub
    rw [scanGo] at h
    split at h
    · cases h
    · exact absurd (Nat.lt_of_le_of_lt hia ha) (by assumption)
  | succ m ih =>
    intro kb i a b ch out ha hb h hia hab hne hsub
    rw [scanGo] at h
    split at h
    · rename_i hlt
      rcases Nat.eq_or_lt_of_le hia with rfl | hlt2
      · have hb2 : b - (i + 1) < (kb.drop (i + 1)).length := by
          rw [List.length_drop]
          omega
        have e := @List.getElem_drop Sentence kb (i + 1) (b - (i + 1)) hb2
        have e2 : i + 1 + (b - (i + 1)) = b := by omega
        simp only [e2] at e
        have hmem : kb.get ⟨b, hb⟩ ∈ kb.drop (i + 1) := by
          rw [List.get_eq_getElem, ← e]
          exact List.getElem_mem hb2
        have hc := scanInner_derives (kb.get ⟨i, hlt⟩) (kb.drop (i + 1)) kb ch
          hmem hne hsub
        exact scanGo_mem m _ (i + 1) _ out h hc
      · have h2 : scanGo m
            (scanInner (kb.get ⟨i, hlt⟩) (kb.drop (i + 1)) kb ch).1 (i + 1)
            (scanInner (kb.get ⟨i, hlt⟩) (kb.drop (i + 1)) kb ch).2 =
            some out := h
        rcases scanInner_append (kb.get ⟨i, hlt⟩) (kb.drop (i + 1)) kb ch
          with ⟨t, ht⟩
        rw [ht] at h2
        have ha2 : a < (kb ++ t).length := by
          rw [List.length_append]
          omega
        have hb3 : b < (kb ++ t).length := by
          rw [List.length_append]
          omega
        have hga : (kb ++ t).get ⟨a, ha2⟩ = kb.get ⟨a, ha⟩ := by
          simp only [List.get_eq_getElem]
          exact List.getElem_append_left ha
        have hgb : (kb ++ t).get ⟨b, hb3⟩ = kb.get ⟨b, hb⟩ := by
          simp only [List.get_eq_getElem]
          exact List.getElem_append_left hb
        have hfin := ih (kb ++ t) (i + 1) a b
          (scanInner (kb.get ⟨i, hlt⟩) (kb.drop (i + 1)) kb ch).2 out ha2 hb3
          h2 hlt2 hab (by rw [hga]; exact hne) (by rw [hga, hgb]; exact hsub)
        rw [hga, hgb] at hfin
        exact hfin
    · exact absurd (Nat.lt_of_le_of_lt hia ha) (by assumption)

/-- Witness for `scan_derives_difference_of_earlier_subset` on a concrete
two-sentence knowledge base: the scan over `[{(0,0)} = 1, {(0,0),(0,1)} = 1]`
yields a list containing the difference sentence `{(0,1)} = 0`. -/
theorem scan_derives_difference_witness :
    (⟨({(0, 0), (0, 1)} : Finset Cell) \ {(0, 0)}, 1 - 1⟩ : Sentence) ∈
      [(⟨{(0, 0)}, 1⟩ : Sentence), ⟨{(0, 0), (0, 1)}, 1⟩, ⟨{(0, 1)}, 0⟩] :=
  scan_derives_difference_of_earlier_subset 5
    [⟨{(0, 0)}, 1⟩, ⟨{(0, 0), (0, 1)}, 1⟩] 0 0 1 false
    ([⟨{(0, 0)}, 1⟩, ⟨{(0, 0), (0, 1)}, 1⟩, ⟨{(0, 1)}, 0⟩], true)
    (by decide) (by decide) (by decide) (by decide) (by decide) (by decide)
    (by decide)

/-- Auxiliary: marking a list of safe cells never touches `moves_made`. -/
theorem foldl_mark_safe_moves :
    ∀ (l : List Cell) (σ : AIState),
      (l.foldl AIState.mark_safe σ).moves_made = σ.moves_made := by
  intro l
  induction l with
  | nil => intro σ; rfl
  | cons c rest ih =>
    intro σ
    rw [List.foldl_cons, ih]
    rfl

/-- Auxiliary: marking a list of safe cells only grows `safes`. -/
theorem foldl_mark_safe_safes :
    ∀ (l : List Cell) (σ : AIState),
      σ.safes ⊆ (l.foldl AIState.mark_safe σ).safes := by
  intro l
  induction l with
  | nil => intro σ; exact Finset.Subset.refl _
  | cons c rest ih =>
    intro σ
    rw [List.foldl_cons]
    exact (Finset.subset_insert c σ.safes).trans (ih (σ.mark_safe c))

/-- Auxiliary: marking a list of mine cells touches neither `moves_made`
nor `safes`. -/
theorem foldl_mark_mine_moves_safes :
    ∀ (l : List Cell) (σ : AIState),
      (l.foldl AIState.mark_mine σ).moves_made = σ.moves_made ∧
        (l.foldl AIState.mark_mine σ).safes = σ.safes := by
  intro l
  induction l with
  | nil => intro σ; exact ⟨rfl, rfl⟩
  | cons c rest ih =>
    intro σ
    rw [List.foldl_cons]
    rcases ih (σ.mark_mine c) with ⟨h1, h2⟩
    exact ⟨h1, h2⟩

/-- Auxiliary: one propagation pass never changes `moves_made` and never
shrinks `safes`. -/
theorem passStep_moves_safes :
    ∀ (sf : ℕ) (σ σ' : AIState) (ch : Bool),
      passStep sf σ = some (σ', ch) →
      σ'.moves_made = σ.moves_made ∧ σ.safes ⊆ σ'.safes := by
  intro sf σ σ' ch h
  simp only [passStep, Option.map_eq_some'] at h
  rcases h with ⟨p, hp, hfp⟩
  have e1 := congrArg (fun q => AIState.moves_made q.1) hfp
  have e2 := congrArg (fun q => AIState.safes q.1) hfp
  dsimp only at e1 e2
  constructor
  · rw [← e1, (foldl_mark_mine_moves_safes _ _).1, foldl_mark_safe_moves]
  · rw [← e2, (foldl_mark_mine_moves_safes _ _).2]
    exact foldl_mark_safe_safes _ _

/-- Auxiliary: a terminating propagation run never changes `moves_made`
and never shrinks `safes`. -/
theorem propagate_moves_safes :
    ∀ (pf sf : ℕ) (σ σ' : AIState),
      propagate pf sf σ = some σ' →
      σ'.moves_made = σ.moves_made ∧ σ.safes ⊆ σ'.safes := by
  intro pf
  induction pf with
  | zero => intro sf σ σ' h; cases h
  | succ m ih =>
    intro sf σ σ' h
    rw [propagate] at h
    rcases hps : passStep sf σ with _ | ⟨τ, chv⟩
    · rw [hps] at h
      cases h
    · rw [hps] at h
      have hms := passStep_moves_safes sf σ τ chv hps
      cases chv
      · have h' : some τ = some σ' := h
        injection h' with h''
        subst h''
        exact hms
      · have h' : propagate m sf τ = some σ' := h
        rcases ih sf τ σ' h' with ⟨m1, s1⟩
        exact ⟨m1.trans hms.1, hms.2.trans s1⟩

/-- C4 amended: on every state reachable by terminating `add_knowledge`
calls, `moves_made ⊆ safes` holds (every observed cell is immediately
marked safe and `safes` never shrinks).  The other half of the claimed
invariant, `safes ∩ mines = ∅`, is NOT preserved in general — see
`safes_mines_disjoint_counterexample`. -/
theorem reachable_moves_made_subset_safes :
    ∀ σ : AIState, Reachable σ → σ.moves_made ⊆ σ.safes := by
  intro σ h
  induction h with
  | init h w => simp [AIState.initial]
  | step σ0 σ' pf sf c n hr heq ih =>
    have heq' : propagate pf sf (σ0.ingest c n) = some σ' := heq
    rcases propagate_moves_safes pf sf _ _ heq' with ⟨hm, hs⟩
    rw [hm]
    have hsub : insert c σ0.moves_made ⊆ insert c σ0.safes :=
      Finset.insert_subset_insert _ ih
    exact hsub.trans hs

/-- Witness for `reachable_moves_made_subset_safes` at the freshly
constructed 2×2 solver. -/
theorem reachable_moves_made_subset_safes_witness :
    (AIState.initial 2 2).moves_made ⊆ (AIState.initial 2 2).safes :=
  reachable_moves_made_subset_safes _ (Reachable.init 2 2)

/-- Auxiliary: membership in the canonical enumeration of a multiset. -/
theorem mem_cellListM :
    ∀ (m : Multiset Cell) (c : Cell), c ∈ cellListM m ↔ c ∈ m := by
  intro m c
  refine Quot.inductionOn m (fun l => ?_)
  change c ∈ l.insertionSort cellLE ↔ c ∈ (l : Multiset Cell)
  rw [Multiset.mem_coe]
  exact (l.perm_insertionSort cellLE).mem_iff

/-- Auxiliary: membership in the canonical enumeration of a finite set. -/
theorem mem_cellList :
    ∀ (s : Finset Cell) (c : Cell), c ∈ cellList s ↔ c ∈ s :=
  fun s c => (mem_cellListM s.val c).trans Finset.mem_def.symm

/-- Auxiliary: the canonical enumeration is empty exactly for the empty
set. -/
theorem cellList_eq_nil : ∀ s : Finset Cell, cellList s = [] ↔ s = ∅ := by
  intro s
  constructor
  · intro h
    rw [Finset.eq_empty_iff_forall_not_mem]
    intro c hc
    have hmem := (mem_cellList s c).mpr hc
    rw [h] at hmem
    cases hmem
  · rintro rfl
    rfl

/-- C9: `make_safe_move` returns an element of `safes − moves_made` when
that set is non-empty and the no-move answer `none` exactly when it is
empty; being a pure function of the state, it mutates nothing.  The two
closing conjuncts are the spec scenario: with `safes = {(0,0)}` and no
moves made the call returns `(0,0)`, and after `(0,0)` is recorded as made
it returns `none`. -/
theorem make_safe_move_spec :
    (∀ (σ : AIState) (c : Cell),
      σ.make_safe_move = some c → c ∈ σ.safes ∧ c ∉ σ.moves_made) ∧
    (∀ σ : AIState, σ.make_safe_move = none ↔ σ.safes \ σ.moves_made = ∅) ∧
    ((⟨2, 2, ∅, ∅, {(0, 0)}, []⟩ : AIState).make_safe_move = some (0, 0)) ∧
    ((⟨2, 2, {(0, 0)}, ∅, {(0, 0)}, []⟩ : AIState).make_safe_move = none) := by
  refine ⟨?_, ?_, by decide, by decide⟩
  · intro σ c h
    have hm : c ∈ cellList (σ.safes \ σ.moves_made) := List.mem_of_mem_head? h
    have hmem := (mem_cellList _ c).mp hm
    rw [Finset.mem_sdiff] at hmem
    exact hmem
  · intro σ
    unfold AIState.make_safe_move
    rw [List.head?_eq_none_iff, cellList_eq_nil]

/-- Witness for `make_safe_move_spec` at the scenario state. -/
theorem make_safe_move_spec_witness :
    ((0, 0) : Cell) ∈ (⟨2, 2, ∅, ∅, {(0, 0)}, []⟩ : AIState).safes ∧
      ((0, 0) : Cell) ∉ (⟨2, 2, ∅, ∅, {(0, 0)}, []⟩ : AIState).moves_made :=
  make_safe_move_spec.1 _ (0, 0) (by decide)

/-- C10: `known_mines` returns `cells` exactly when `|cells| = count > 0`
(the source tests `count != 0`, equivalent because `count = |cells| ≥ 0`),
`known_safes` returns `cells` exactly when `count = 0`, both are pure
functions, and they are never both non-empty on the same sentence. -/
theorem known_mines_known_safes_spec :
    ∀ s : Sentence,
      (s.known_mines =
        if (s.cells.card : ℤ) = s.count ∧ 0 < s.count then s.cells else ∅) ∧
      (s.known_safes = if s.count = 0 then s.cells else ∅) ∧
      ¬(s.known_mines.Nonempty ∧ s.known_safes.Nonempty) := by
  intro s
  have hiff : ((s.cells.card : ℤ) = s.count ∧ s.count ≠ 0) ↔
      ((s.cells.card : ℤ) = s.count ∧ 0 < s.count) := by
    constructor
    · rintro ⟨h1, h2⟩
      exact ⟨h1, by omega⟩
    · rintro ⟨h1, h2⟩
      exact ⟨h1, by omega⟩
  refine ⟨?_, rfl, ?_⟩
  · rw [Sentence.known_mines, if_congr hiff rfl rfl]
  · rintro ⟨hm, hs⟩
    rw [Sentence.known_safes] at hs
    rw [Sentence.known_mines] at hm
    by_cases h0 : s.count = 0
    · rw [if_neg (by rintro ⟨-, h2⟩; exact h2 h0)] at hm
      exact Finset.not_nonempty_empty hm
    · rw [if_neg h0] at hs
      exact Finset.not_nonempty_empty hs

/-- Auxiliary: when `remaining` is non-empty, some candidate attains the
minimum risk, so `safest_moves` is non-empty. -/
theorem safest_moves_nonempty :
    ∀ σ : AIState, σ.remaining ≠ ∅ → σ.safest_moves.Nonempty := by
  intro σ h
  have hne : σ.remaining.Nonempty := Finset.nonempty_iff_ne_empty.mpr h
  rcases Finset.exists_min_image σ.remaining σ.cellRisk hne with ⟨b, hb, hmin⟩
  have h1 : σ.minRisk ≤ (σ.cellRisk b : WithTop ℚ) :=
    Finset.min_le (Finset.mem_image_of_mem _ hb)
  have h2 : (σ.cellRisk b : WithTop ℚ) ≤ σ.minRisk := by
    refine Finset.le_min ?_
    intro q hq
    rcases Finset.mem_image.mp hq with ⟨d, hd, rfl⟩
    exact WithTop.coe_le_coe.mpr (hmin d hd)
  exact ⟨b, Finset.mem_filter.mpr ⟨hb, le_antisymm h2 h1⟩⟩

/-- Auxiliary: whatever the random draw, `make_random_move` answers with a
member of `safest_moves`. -/
theorem make_random_move_mem_safest :
    ∀ (σ : AIState) (k : ℕ) (c : Cell),
      σ.make_random_move k = some c → c ∈ σ.safest_moves := by
  intro σ k c h
  rw [AIState.make_random_move] at h
  split at h
  · cases h
  · rename_i hr
    injection h with h2
    have hlne : cellList σ.safest_moves ≠ [] := by
      intro hz
      rcases safest_moves_nonempty σ hr with ⟨b, hb⟩
      have := (mem_cellList _ b).mpr hb
      rw [hz] at this
      cases this
    have hlen : 0 < (cellList σ.safest_moves).length :=
      List.length_pos.mpr hlne
    have hidx : k % (cellList σ.safest_moves).length <
        (cellList σ.safest_moves).length := Nat.mod_lt _ hlen
    rw [List.getD_eq_getElem _ _ hidx] at h2
    rw [← h2]
    exact (mem_cellList _ _).mp (List.getElem_mem hidx)

/-- C7 amended: `make_random_move` takes no mine-total argument and uses
the fixed literal `8`; `safest_moves` is exactly the set of candidates
whose risk (`AIState.cellRisk`, the max of the hardcoded baseline and the
per-sentence densities) is minimal over `remaining`, and every answer of
`make_random_move` comes from that set.  The claimed baseline with a
caller-supplied total is refuted at `cellRisk_ne_specRisk`. -/
theorem make_random_move_argmin :
    (∀ (σ : AIState) (c : Cell),
      c ∈ σ.safest_moves ↔
        c ∈ σ.remaining ∧ ∀ d ∈ σ.remaining, σ.cellRisk c ≤ σ.cellRisk d) ∧
    (∀ (σ : AIState) (k : ℕ) (c : Cell),
      σ.make_random_move k = some c → c ∈ σ.safest_moves) := by
  refine ⟨?_, make_random_move_mem_safest⟩
  intro σ c
  rw [AIState.safest_moves, Finset.mem_filter]
  constructor
  · rintro ⟨hc, heq⟩
    refine ⟨hc, ?_⟩
    intro d hd
    have hle : σ.minRisk ≤ (σ.cellRisk d : WithTop ℚ) :=
      Finset.min_le (Finset.mem_image_of_mem _ hd)
    rw [← heq] at hle
    exact WithTop.coe_le_coe.mp hle
  · rintro ⟨hc, hmin⟩
    refine ⟨hc, ?_⟩
    have h1 : σ.minRisk ≤ (σ.cellRisk c : WithTop ℚ) :=
      Finset.min_le (Finset.mem_image_of_mem _ hc)
    have h2 : (σ.cellRisk c : WithTop ℚ) ≤ σ.minRisk := by
      refine Finset.le_min ?_
      intro q hq
      rcases Finset.mem_image.mp hq with ⟨d, hd, rfl⟩
      exact WithTop.coe_le_coe.mpr (hmin d hd)
    exact le_antisymm h2 h1

/-- Auxiliary: on the fresh 1×1 solver the draw `k = 0` answers `(0,0)`
(there is a single candidate, so no risk value has to be evaluated). -/
theorem make_random_move_initial11 :
    (AIState.initial 1 1).make_random_move 0 = some (0, 0) := by
  have h1 : (AIState.initial 1 1).remaining = {(0, 0)} := by decide
  have h2 : (AIState.initial 1 1).safest_moves = {(0, 0)} := by
    rw [AIState.safest_moves, AIState.minRisk, h1, Finset.image_singleton,
      Finset.min_singleton, Finset.filter_singleton, if_pos rfl]
  rw [AIState.make_random_move, if_neg (by rw [h1]; decide), h2]
  have h3 : cellList {((0, 0) : Cell)} = [(0, 0)] := by decide
  rw [h3]
  rfl

/-- Witness for `make_random_move_argmin`: on the fresh 1×1 solver the draw
`k = 0` answers `(0,0)`, which indeed lies in `safest_moves`. -/
theorem make_random_move_argmin_witness :
    ((0, 0) : Cell) ∈ (AIState.initial 1 1).safest_moves :=
  make_random_move_argmin.2 (AIState.initial 1 1) 0 (0, 0)
    make_random_move_initial11

/-- C7 counterexample: the risk the code assigns is NOT the spec formula
with a caller-supplied total mine count: on a fresh 2×2 solver of a game
with `total_mine_count = 1`, the spec baseline is `(1 − 0)/4 = 1/4` while
the code computes `(8 − 0)/4 = 2` from its hardcoded `8`. -/
theorem cellRisk_ne_specRisk :
    (AIState.initial 2 2).cellRisk (0, 0) ≠
      specRisk 1 (AIState.initial 2 2) (0, 0) := by
  have hk : (AIState.initial 2 2).knowledge = [] := rfl
  have h4 : (AIState.initial 2 2).remaining.card = 4 := by decide
  have h0 : (AIState.initial 2 2).mines.card = 0 := by decide
  rw [AIState.cellRisk, specRisk, hk, List.foldl_nil, List.foldl_nil, h4, h0]
  norm_num

/-- C8: `make_random_move` answers `none` exactly when
`remaining = grid − moves_made − mines` is empty, and any cell it returns
belongs to `remaining` — in particular it is neither an already-made move
nor a known mine. -/
theorem make_random_move_spec :
    (∀ (σ : AIState) (k : ℕ),
      σ.make_random_move k = none ↔ σ.remaining = ∅) ∧
    (∀ (σ : AIState) (k : ℕ) (c : Cell),
      σ.make_random_move k = some c →
        c ∈ σ.remaining ∧ c ∉ σ.moves_made ∧ c ∉ σ.mines) := by
  constructor
  · intro σ k
    by_cases hr : σ.remaining = ∅
    · simp [AIState.make_random_move, hr]
    · simp [AIState.make_random_move, hr]
  · intro σ k c h
    have hs := make_random_move_mem_safest σ k c h
    have hrem : c ∈ σ.remaining := Finset.mem_filter.mp hs |>.1
    have hrem2 := hrem
    rw [AIState.remaining, Finset.mem_sdiff] at hrem2
    rcases hrem2 with ⟨hgm, hmine⟩
    rw [Finset.mem_sdiff] at hgm
    exact ⟨hrem, hgm.2, hmine⟩

/-- Witness for `make_random_move_spec`: the answer on the fresh 1×1 solver
with draw `k = 0` is a cell of `remaining` that is neither played nor a
known mine. -/
theorem make_random_move_spec_witness :
    ((0, 0) : Cell) ∈ (AIState.initial 1 1).remaining ∧
      ((0, 0) : Cell) ∉ (AIState.initial 1 1).moves_made ∧
      ((0, 0) : Cell) ∉ (AIState.initial 1 1).mines :=
  make_random_move_spec.2 (AIState.initial 1 1) 0 (0, 0)
    make_random_move_initial11

end Minesweeper
